import Mathlib

/-!
Verification of the minitorch reverse-mode autodiff core (`minitorch/autodiff.py`).

The computation graph is embedded as a tree of `Node` values carrying the
fields of the `Variable` protocol: `unique_id`, `is_constant`, `is_leaf`,
`parents`, and a linear `chain_rule` (edge `g` sends upstream derivative `d`
to the contribution `d * g`, matching the Local Derivative Provider contract).
Shared subgraphs (fan-out / diamonds) are represented by repeating the same
node (same `uid`, same structure) in several parents lists; the predicate
`Consistent` states that equal uids mean equal nodes, which is exactly the
shape every finite acyclic graph unfolds to.  `ConstNoParents` is the data
model invariant that a constant node has no parents.

`dfs` / `topological_sort` and `runBackprop` / `backpropagate` transliterate
`topological_sort` and `backpropagate` from the source; derivative totals are
an insertion-ordered association list mirroring the Python dict, and the
externally observable side effects (`accumulate_derivative` calls,
`chain_rule` invocations) are recorded as an `Event` trace.
-/

namespace Minitorch

mutual

inductive Node : Type where
  | mk (uid : Nat) (const : Bool) (leaf : Bool) (parentEdges : EdgeList) : Node
  deriving DecidableEq

inductive EdgeList : Type where
  | nil : EdgeList
  | cons (p : Node) (g : Int) (rest : EdgeList) : EdgeList
  deriving DecidableEq

end

/-- `unique_id` field of the `Variable` protocol. -/
def Node.uid : Node → Nat
  | .mk u _ _ _ => u

/-- `is_constant()` of the `Variable` protocol (history is `None`). -/
def Node.is_constant : Node → Bool
  | .mk _ c _ _ => c

/-- `is_leaf()` of the `Variable` protocol. -/
def Node.is_leaf : Node → Bool
  | .mk _ _ l _ => l

def Node.parentEdges : Node → EdgeList
  | .mk _ _ _ ps => ps

def EdgeList.toList : EdgeList → List (Node × Int)
  | .nil => []
  | .cons p g r => (p, g) :: r.toList

/-- `parents` property: the ordered inputs of the producing operation. -/
def Node.parents (v : Node) : List Node := v.parentEdges.toList.map Prod.fst

/-- `chain_rule(d_output)`: one `(parent, local_derivative)` pair per parent,
with the linear local derivative `d_output * g` per the Local Derivative
Provider contract. -/
def Node.chain_rule (v : Node) (d : Int) : List (Node × Int) :=
  v.parentEdges.toList.map (fun e => (e.1, d * e.2))

mutual

def Node.size : Node → Nat
  | .mk _ _ _ ps => EdgeList.size ps + 1

def EdgeList.size : EdgeList → Nat
  | .nil => 0
  | .cons p _ r => Node.size p + EdgeList.size r

end

mutual

/-- Every node of the tree (the nodes reachable from the root through the
parent relation). -/
def Node.allNodes : Node → List Node
  | .mk u c l ps => .mk u c l ps :: EdgeList.allNodes ps

def EdgeList.allNodes : EdgeList → List Node
  | .nil => []
  | .cons p _ r => p.allNodes ++ r.allNodes

end

mutual

/-- The recursive `dfs` helper of `topological_sort`: skip constants, mark
the node, recurse into unmarked parents, then append the node (post-order).
State is `(marked, result)`. -/
def dfs (v : Node) (s : List Nat × List Node) : List Nat × List Node :=
  match v with
  | .mk u c l ps =>
    if c then s
    else
      let s2 := dfsEdges ps (u :: s.1, s.2)
      (s2.1, s2.2 ++ [Node.mk u c l ps])

/-- The `for w in v.parents: if w.unique_id not in marked: dfs(w)` loop. -/
def dfsEdges : EdgeList → List Nat × List Node → List Nat × List Node
  | .nil, s => s
  | .cons w _ es, s => dfsEdges es (if w.uid ∈ s.1 then s else dfs w s)

end

/-- `topological_sort(variable)`: run the DFS from the output and reverse the
accumulated post-order. -/
def topological_sort (variable_ : Node) : List Node :=
  (dfs variable_ ([], [])).2.reverse

@[simp] theorem Node.uid_mk (u : Nat) (c l : Bool) (ps : EdgeList) : (Node.mk u c l ps).uid = u := rfl

@[simp] theorem Node.is_constant_mk (u : Nat) (c l : Bool) (ps : EdgeList) : (Node.mk u c l ps).is_constant = c := rfl

@[simp] theorem Node.is_leaf_mk (u : Nat) (c l : Bool) (ps : EdgeList) : (Node.mk u c l ps).is_leaf = l := rfl

@[simp] theorem Node.parentEdges_mk (u : Nat) (c l : Bool) (ps : EdgeList) : (Node.mk u c l ps).parentEdges = ps := rfl

@[simp] theorem EdgeList.toList_nil : EdgeList.nil.toList = [] := rfl

@[simp] theorem EdgeList.toList_cons (p : Node) (g : Int) (r : EdgeList) :
    (EdgeList.cons p g r).toList = (p, g) :: r.toList := rfl

@[simp] theorem Node.size_mk (u : Nat) (c l : Bool) (ps : EdgeList) : (Node.mk u c l ps).size = ps.size + 1 := rfl

@[simp] theorem EdgeList.size_nil : EdgeList.nil.size = 0 := rfl

@[simp] theorem EdgeList.size_cons (p : Node) (g : Int) (r : EdgeList) :
    (EdgeList.cons p g r).size = p.size + r.size := rfl

@[simp] theorem Node.allNodes_mk (u : Nat) (c l : Bool) (ps : EdgeList) :
    (Node.mk u c l ps).allNodes = Node.mk u c l ps :: ps.allNodes := rfl

@[simp] theorem EdgeList.allNodes_nil : EdgeList.nil.allNodes = [] := rfl

@[simp] theorem EdgeList.allNodes_cons (p : Node) (g : Int) (r : EdgeList) :
    (EdgeList.cons p g r).allNodes = p.allNodes ++ r.allNodes := rfl

theorem Node.self_mem_allNodes (v : Node) : v ∈ v.allNodes := by
  cases v with
  | mk u c l ps => simp

theorem Node.size_pos (v : Node) : 0 < v.size := by
  cases v with
  | mk u c l ps => simp

theorem EdgeList.size_of_mem : (es : EdgeList) → ∀ pr : Node × Int, pr ∈ es.toList →
    pr.1.size ≤ es.size
  | .nil => by intro pr h; simp at h
  | .cons p g r => by
    intro pr h
    rcases List.mem_cons.1 (by simpa using h) with h1 | h1
    · subst h1; simp
    · have := EdgeList.size_of_mem r pr h1; simp; omega

theorem Node.size_parent_lt {v : Node} {pr : Node × Int} (h : pr ∈ v.parentEdges.toList) :
    pr.1.size < v.size := by
  cases v with
  | mk u c l ps =>
    have := EdgeList.size_of_mem ps pr (by simpa using h)
    simp
    omega

theorem EdgeList.mem_allNodes_of_edge : (es : EdgeList) → ∀ pr : Node × Int, pr ∈ es.toList →
    ∀ x : Node, x ∈ pr.1.allNodes → x ∈ es.allNodes
  | .nil => by intro pr h; simp at h
  | .cons p g r => by
    intro pr h x hx
    rcases List.mem_cons.1 (by simpa using h) with h1 | h1
    · subst h1; simp [hx]
    · simp [EdgeList.mem_allNodes_of_edge r pr h1 x hx]

theorem EdgeList.mem_allNodes_iff : (es : EdgeList) → ∀ x : Node,
    (x ∈ es.allNodes ↔ ∃ pr ∈ es.toList, x ∈ pr.1.allNodes)
  | .nil => by intro x; simp
  | .cons p g r => by
    intro x
    simp only [EdgeList.allNodes_cons, List.mem_append, EdgeList.mem_allNodes_iff r x,
      EdgeList.toList_cons, List.mem_cons]
    constructor
    · rintro (h | ⟨pr, hpr, hx⟩)
      · exact ⟨(p, g), Or.inl rfl, h⟩
      · exact ⟨pr, Or.inr hpr, hx⟩
    · rintro ⟨pr, hpr | hpr, hx⟩
      · subst hpr; exact Or.inl hx
      · exact Or.inr ⟨pr, hpr, hx⟩

theorem Node.parent_mem_allNodes {v : Node} {pr : Node × Int} (h : pr ∈ v.parentEdges.toList) :
    pr.1 ∈ v.allNodes := by
  cases v with
  | mk u c l ps =>
    simp only [Node.parentEdges_mk] at h
    exact List.mem_cons.2 (Or.inr (EdgeList.mem_allNodes_of_edge ps pr h pr.1 pr.1.self_mem_allNodes))

mutual

theorem Node.allNodes_transN : (z : Node) → ∀ x y : Node, x ∈ y.allNodes → y ∈ z.allNodes → x ∈ z.allNodes
  | .mk u c l ps => by
    intro x y hxy hyz
    rcases List.mem_cons.1 (by simpa using hyz) with h | h
    · subst h
      exact hxy
    · exact List.mem_cons.2 (Or.inr (EdgeList.allNodes_transE ps x y hxy h))

theorem EdgeList.allNodes_transE : (es : EdgeList) → ∀ x y : Node, x ∈ y.allNodes → y ∈ es.allNodes → x ∈ es.allNodes
  | .nil => by intro x y _ h; simp at h
  | .cons p g r => by
    intro x y hxy hyz
    rcases List.mem_append.1 (by simpa using hyz) with h | h
    · simp [Node.allNodes_transN p x y hxy h]
    · simp [EdgeList.allNodes_transE r x y hxy h]

end

mutual

theorem Node.size_of_mem_allNodesN : (v : Node) → ∀ x : Node, x ∈ v.allNodes → x.size ≤ v.size
  | .mk u c l ps => by
    intro x hx
    rcases List.mem_cons.1 (by simpa using hx) with h | h
    · subst h; exact le_refl _
    · have := EdgeList.size_of_mem_allNodesE ps x h
      simp
      omega

theorem EdgeList.size_of_mem_allNodesE : (es : EdgeList) → ∀ x : Node, x ∈ es.allNodes → x.size ≤ es.size
  | .nil => by intro x hx; simp at hx
  | .cons p g r => by
    intro x hx
    rcases List.mem_append.1 (by simpa using hx) with h | h
    · have := Node.size_of_mem_allNodesN p x h
      simp
      omega
    · have := EdgeList.size_of_mem_allNodesE r x h
      simp
      omega

end

/-- The uids of a list of nodes. -/
def uids (r : List Node) : List Nat := r.map Node.uid

/-- Post-order validity: each node of the list comes strictly after all of
its non-constant parents. -/
def Ordered (r : List Node) : Prop :=
  ∀ r1 x r2, r = r1 ++ x :: r2 → ∀ p ∈ x.parents, p.is_constant = false → p.uid ∈ uids r1

/-- Invariant tying the DFS state `(m, r)` to the gray stack `G` (the chain
of calls whose parents loop is still running). -/
def StateInv (root : Node) (G : List Node) (m : List Nat) (r : List Node) : Prop :=
  (∀ u, u ∈ m ↔ u ∈ uids r ∨ u ∈ uids G) ∧
  (uids r).Nodup ∧
  (∀ x ∈ r, x.is_constant = false) ∧
  (∀ x ∈ r, x ∈ root.allNodes) ∧
  Ordered r

/-- A node's `unique_id` determines the node: the shape in which any finite
acyclic graph unfolds to a tree. -/
def Consistent (root : Node) : Prop :=
  ∀ a ∈ root.allNodes, ∀ b ∈ root.allNodes, a.uid = b.uid → a = b

/-- Data-model invariant: a constant node has no parents. -/
def ConstNoParents (root : Node) : Prop :=
  ∀ x ∈ root.allNodes, x.is_constant = true → x.parentEdges = EdgeList.nil

instance (root : Node) : Decidable (Consistent root) := by
  unfold Consistent
  infer_instance

instance (root : Node) : Decidable (ConstNoParents root) := by
  unfold ConstNoParents
  infer_instance

@[simp] theorem uids_nil : uids [] = [] := rfl

@[simp] theorem uids_cons (x : Node) (r : List Node) : uids (x :: r) = x.uid :: uids r := rfl

@[simp] theorem uids_append (r t : List Node) : uids (r ++ t) = uids r ++ uids t := by
  simp [uids]

theorem mem_uids {u : Nat} {r : List Node} : u ∈ uids r ↔ ∃ x ∈ r, x.uid = u := by
  simp [uids]

theorem uid_ne_of_size_lt {root a b : Node} (hcons : Consistent root) (ha : a ∈ root.allNodes)
    (hb : b ∈ root.allNodes) (h : a.size < b.size) : a.uid ≠ b.uid := by
  intro he
  have : a = b := hcons a ha b hb he
  subst this
  omega

theorem ordered_closed {r : List Node} (h : Ordered r) :
    ∀ x ∈ r, ∀ p ∈ x.parents, p.is_constant = false → p.uid ∈ uids r := by
  intro x hx p hp hnc
  rcases List.append_of_mem hx with ⟨r1, r2, rfl⟩
  have := h r1 x r2 rfl p hp hnc
  simp only [uids_append, uids_cons]
  exact List.mem_append.2 (Or.inl this)

theorem split_snoc {r r1 r2 : List Node} {v x : Node} (h : r ++ [v] = r1 ++ x :: r2) :
    (r1 = r ∧ x = v ∧ r2 = []) ∨ ∃ r2', r2 = r2' ++ [v] ∧ r = r1 ++ x :: r2' := by
  rcases List.eq_nil_or_concat r2 with h2 | ⟨L, b, h2⟩
  · subst h2
    have hlen : r.length = r1.length := by
      have := congrArg List.length h
      simp at this
      omega
    have := List.append_inj h (by omega)
    refine Or.inl ⟨(this.1).symm, ?_, rfl⟩
    have := this.2
    simp at this
    exact this.symm
  · subst h2
    have h' : r ++ [v] = (r1 ++ x :: L) ++ [b] := by simp [h]
    have hlen : r.length = (r1 ++ x :: L).length := by
      have := congrArg List.length h'
      simp at this
      simp
      omega
    have := List.append_inj h' hlen
    have hb : v = b := by
      have := this.2
      simp at this
      exact this
    exact Or.inr ⟨L, by rw [hb]; simp [List.concat_eq_append], this.1⟩

theorem ordered_snoc {r : List Node} {v : Node} (h : Ordered r)
    (hv : ∀ p ∈ v.parents, p.is_constant = false → p.uid ∈ uids r) :
    Ordered (r ++ [v]) := by
  intro r1 x r2 hsplit p hp hnc
  rcases split_snoc hsplit with ⟨h1, h2, h3⟩ | ⟨r2', h2, h3⟩
  · subst h1; subst h2
    exact hv p hp hnc
  · exact h r1 x r2' h3 p hp hnc

theorem mem_of_uid_mem {root : Node} {r : List Node} (hcons : Consistent root)
    (hsub : ∀ x ∈ r, x ∈ root.allNodes) {w : Node} (hw : w ∈ root.allNodes)
    (hu : w.uid ∈ uids r) : w ∈ r := by
  rcases mem_uids.1 hu with ⟨y, hy, hyu⟩
  have : y = w := hcons y (hsub y hy) w hw hyu
  subst this
  exact hy

mutual

theorem Node.closure_completeN : (w : Node) → ∀ (root : Node) (r : List Node),
    Consistent root → ConstNoParents root →
    (∀ x ∈ r, x ∈ root.allNodes) → (∀ x ∈ r, x.is_constant = false) →
    (∀ x ∈ r, ∀ p ∈ x.parents, p.is_constant = false → p.uid ∈ uids r) →
    w ∈ root.allNodes → w.uid ∈ uids r →
    ∀ x ∈ w.allNodes, x.is_constant = false → x.uid ∈ uids r
  | .mk u c l ps => by
    intro root r hcons hcnp hsub hnc hclosed hw hwu x hx hxnc
    rcases List.mem_cons.1 (by simpa using hx) with h | h
    · subst h; exact hwu
    · have hwr : Node.mk u c l ps ∈ r := mem_of_uid_mem hcons hsub hw hwu
      refine EdgeList.closure_completeE ps root r hcons hcnp hsub hnc hclosed ?_ x h hxnc
      intro pr hpr
      refine ⟨Node.allNodes_transN root pr.1 (Node.mk u c l ps)
        (Node.parent_mem_allNodes (by simpa using hpr)) hw, ?_⟩
      intro hprnc
      exact hclosed (Node.mk u c l ps) hwr pr.1
        (List.mem_map.2 ⟨pr, by simpa using hpr, rfl⟩) hprnc

theorem EdgeList.closure_completeE : (es : EdgeList) → ∀ (root : Node) (r : List Node),
    Consistent root → ConstNoParents root →
    (∀ x ∈ r, x ∈ root.allNodes) → (∀ x ∈ r, x.is_constant = false) →
    (∀ x ∈ r, ∀ p ∈ x.parents, p.is_constant = false → p.uid ∈ uids r) →
    (∀ pr ∈ es.toList, pr.1 ∈ root.allNodes ∧ (pr.1.is_constant = false → pr.1.uid ∈ uids r)) →
    ∀ x ∈ es.allNodes, x.is_constant = false → x.uid ∈ uids r
  | .nil => by intro root r _ _ _ _ _ _ x hx; simp at hx
  | .cons p g rest => by
    intro root r hcons hcnp hsub hnc hclosed hes x hx hxnc
    rcases List.mem_append.1 (by simpa using hx) with h | h
    · have hp := hes (p, g) (by simp)
      by_cases hpc : p.is_constant = true
      · have hnil : p.parentEdges = EdgeList.nil := hcnp p hp.1 hpc
        have : x = p := by
          cases p with
          | mk pu pc pl pps =>
            simp only [Node.parentEdges_mk] at hnil
            subst hnil
            simpa using h
        subst this
        rw [hpc] at hxnc
        exact absurd hxnc (by simp)
      · have hpnc : p.is_constant = false := by
          cases hh : p.is_constant
          · rfl
          · exact absurd hh hpc
        exact Node.closure_completeN p root r hcons hcnp hsub hnc hclosed hp.1 (hp.2 hpnc) x h hxnc
    · exact EdgeList.closure_completeE rest root r hcons hcnp hsub hnc hclosed
        (fun pr hpr => hes pr (by simp [hpr])) x h hxnc

end

theorem si_mono {root : Node} {G : List Node} {m m' : List Nat} {r r' : List Node}
    (h : StateInv root G m r) (h' : StateInv root G m' r')
    (hext : ∃ t, r' = r ++ t) : ∀ u ∈ m, u ∈ m' := by
  intro u hu
  obtain ⟨t, rfl⟩ := hext
  rcases (h.1 u).1 hu with hr | hGu
  · exact (h'.1 u).2 (Or.inl (by simp only [uids_append]; exact List.mem_append.2 (Or.inl hr)))
  · exact (h'.1 u).2 (Or.inr hGu)

mutual

theorem dfs_spec : (v : Node) → ∀ (root : Node) (G : List Node) (m : List Nat) (r : List Node),
    Consistent root → ConstNoParents root →
    v ∈ root.allNodes →
    (∀ g ∈ G, g ∈ root.allNodes) → (∀ g ∈ G, v.size < g.size) →
    StateInv root G m r →
    (v.is_constant = false → v.uid ∉ m) →
    (∃ t, (dfs v (m, r)).2 = r ++ t) ∧
    StateInv root G (dfs v (m, r)).1 (dfs v (m, r)).2 ∧
    (∀ x ∈ (dfs v (m, r)).2, x ∈ r ∨ x ∈ v.allNodes) ∧
    (∀ x ∈ v.allNodes, x.is_constant = false → x.uid ∈ (dfs v (m, r)).1) ∧
    (v.is_constant = false → ∃ t2, (dfs v (m, r)).2 = t2 ++ [v])
  | .mk u c l ps => by
    intro root G m r hcons hcnp hv hG hGsz hsi hnm
    cases hc : c with
    | true =>
      subst hc
      have hd : dfs (Node.mk u true l ps) (m, r) = (m, r) := by simp [dfs]
      rw [hd]
      refine ⟨⟨[], by simp⟩, hsi, fun x hx => Or.inl hx, ?_, ?_⟩
      · intro x hx hxnc
        have hnil : (Node.mk u true l ps).parentEdges = EdgeList.nil :=
          hcnp _ hv (by simp)
        simp only [Node.parentEdges_mk] at hnil
        subst hnil
        simp at hx
        subst hx
        simp at hxnc
      · intro hncv
        simp at hncv
    | false =>
      subst hc
      have hd : dfs (Node.mk u false l ps) (m, r)
          = ((dfsEdges ps (u :: m, r)).1, (dfsEdges ps (u :: m, r)).2 ++ [Node.mk u false l ps]) := by
        simp [dfs]
      rw [hd]
      have hun : (Node.mk u false l ps).uid ∉ m := hnm (by simp)
      simp only [Node.uid_mk] at hun
      have hparents_root : ∀ pr ∈ ps.toList, pr.1 ∈ root.allNodes := by
        intro pr hpr
        exact Node.allNodes_transN root pr.1 (Node.mk u false l ps)
          (Node.parent_mem_allNodes (by simpa using hpr)) hv
      have hparents_sz : ∀ pr ∈ ps.toList, ∀ g ∈ Node.mk u false l ps :: G, pr.1.size < g.size := by
        intro pr hpr g hg
        have h1 : pr.1.size < (Node.mk u false l ps).size :=
          Node.size_parent_lt (v := Node.mk u false l ps) (by simpa using hpr)
        rcases List.mem_cons.1 hg with h | h
        · subst h; exact h1
        · exact lt_trans h1 (hGsz g h)
      have hsi1 : StateInv root (Node.mk u false l ps :: G) (u :: m) r := by
        obtain ⟨hm, hnd, hnc, hsub, hord⟩ := hsi
        refine ⟨?_, hnd, hnc, hsub, hord⟩
        intro u'
        simp only [List.mem_cons, hm u', uids_cons, Node.uid_mk]
        tauto
      have hGall : ∀ g ∈ Node.mk u false l ps :: G, g ∈ root.allNodes := by
        intro g hg
        rcases List.mem_cons.1 hg with h | h
        · subst h; exact hv
        · exact hG g h
      obtain ⟨⟨t, ht⟩, hsi2, hnew, hcomp⟩ :=
        dfsEdges_spec ps root (Node.mk u false l ps :: G) (u :: m) r hcons hcnp
          hparents_root hparents_sz hGall hsi1
      obtain ⟨hm2, hnd2, hnc2, hsub2, hord2⟩ := hsi2
      have hu_notin_r : u ∉ uids r := fun hur => hun ((hsi.1 u).2 (Or.inl hur))
      have hu_notin_r2 : u ∉ uids (dfsEdges ps (u :: m, r)).2 := by
        intro hur2
        rcases mem_uids.1 hur2 with ⟨x, hx, hxu⟩
        rcases hnew x hx with hxr | ⟨pr, hpr, hxp⟩
        · exact hu_notin_r (mem_uids.2 ⟨x, hxr, hxu⟩)
        · have hxsz : x.size < (Node.mk u false l ps).size :=
            lt_of_le_of_lt (Node.size_of_mem_allNodesN pr.1 x hxp)
              (Node.size_parent_lt (v := Node.mk u false l ps) (by simpa using hpr))
          exact uid_ne_of_size_lt hcons (hsub2 x hx) hv hxsz (by simpa using hxu)
      have hparent_uid_r2 : ∀ pr ∈ ps.toList, pr.1.is_constant = false →
          pr.1.uid ∈ uids (dfsEdges ps (u :: m, r)).2 := by
        intro pr hpr hpnc
        have := hcomp pr hpr pr.1 pr.1.self_mem_allNodes hpnc
        rcases (hm2 pr.1.uid).1 this with h | h
        · exact h
        · exfalso
          simp only [uids_cons, Node.uid_mk, List.mem_cons] at h
          rcases h with h | h
          · exact uid_ne_of_size_lt hcons (hparents_root pr hpr) hv
              (Node.size_parent_lt (v := Node.mk u false l ps) (by simpa using hpr)) (by simpa using h)
          · rcases mem_uids.1 h with ⟨g', hg', hgu⟩
            exact uid_ne_of_size_lt hcons (hparents_root pr hpr) (hG g' hg')
              (hparents_sz pr hpr g' (List.mem_cons.2 (Or.inr hg'))) hgu.symm
      refine ⟨⟨t ++ [Node.mk u false l ps], by rw [ht]; simp⟩, ⟨?_, ?_, ?_, ?_, ?_⟩, ?_, ?_, ?_⟩
      · intro u'
        rw [hm2 u']
        simp only [uids_append, uids_cons, uids_nil, Node.uid_mk, List.mem_append, List.mem_cons]
        tauto
      · simp only [uids_append, uids_cons, uids_nil, Node.uid_mk]
        rw [List.nodup_append]
        refine ⟨hnd2, List.nodup_singleton _, ?_⟩
        intro a ha hb
        simp at hb
        subst hb
        exact hu_notin_r2 ha
      · intro x hx
        rcases List.mem_append.1 hx with h | h
        · exact hnc2 x h
        · simp at h; subst h; simp
      · intro x hx
        rcases List.mem_append.1 hx with h | h
        · exact hsub2 x h
        · simp at h; subst h; exact hv
      · refine ordered_snoc hord2 ?_
        intro p hp hpnc
        rcases List.mem_map.1 hp with ⟨pr, hpr, rfl⟩
        exact hparent_uid_r2 pr (by simpa using hpr) hpnc
      · intro x hx
        rcases List.mem_append.1 hx with h | h
        · rcases hnew x h with hxr | ⟨pr, hpr, hxp⟩
          · exact Or.inl hxr
          · exact Or.inr (List.mem_cons.2 (Or.inr (EdgeList.mem_allNodes_of_edge ps pr hpr x hxp)))
        · simp at h; subst h
          exact Or.inr (Node.self_mem_allNodes _)
      · intro x hx hxnc
        rcases List.mem_cons.1 (by simpa using hx) with h | h
        · subst h
          exact (hm2 u).2 (Or.inr (by simp))
        · rcases (EdgeList.mem_allNodes_iff ps x).1 h with ⟨pr, hpr, hxp⟩
          exact hcomp pr hpr x hxp hxnc
      · intro _
        exact ⟨(dfsEdges ps (u :: m, r)).2, rfl⟩

theorem dfsEdges_spec : (es : EdgeList) → ∀ (root : Node) (G : List Node) (m : List Nat) (r : List Node),
    Consistent root → ConstNoParents root →
    (∀ pr ∈ es.toList, pr.1 ∈ root.allNodes) →
    (∀ pr ∈ es.toList, ∀ g ∈ G, pr.1.size < g.size) →
    (∀ g ∈ G, g ∈ root.allNodes) →
    StateInv root G m r →
    (∃ t, (dfsEdges es (m, r)).2 = r ++ t) ∧
    StateInv root G (dfsEdges es (m, r)).1 (dfsEdges es (m, r)).2 ∧
    (∀ x ∈ (dfsEdges es (m, r)).2, x ∈ r ∨ ∃ pr ∈ es.toList, x ∈ pr.1.allNodes) ∧
    (∀ pr ∈ es.toList, ∀ x ∈ pr.1.allNodes, x.is_constant = false → x.uid ∈ (dfsEdges es (m, r)).1)
  | .nil => by
    intro root G m r _ _ _ _ _ hsi
    refine ⟨⟨[], by simp [dfsEdges]⟩, by simp [dfsEdges]; exact hsi, ?_, ?_⟩
    · intro x hx
      exact Or.inl (by simpa [dfsEdges] using hx)
    · intro pr hpr
      simp at hpr
  | .cons w g es => by
    intro root G m r hcons hcnp hroots hsz hGroot hsi
    by_cases hmem : w.uid ∈ m
    · have hd : dfsEdges (EdgeList.cons w g es) (m, r) = dfsEdges es (m, r) := by
        simp [dfsEdges, if_pos hmem]
      rw [hd]
      obtain ⟨hext', hsi', hnew', hcomp'⟩ :=
        dfsEdges_spec es root G m r hcons hcnp
          (fun pr hpr => hroots pr (by simp [hpr]))
          (fun pr hpr => hsz pr (by simp [hpr])) hGroot hsi
      have hwroot : w ∈ root.allNodes := hroots (w, g) (by simp)
      have hw_in_r : w.uid ∈ uids r := by
        rcases (hsi.1 w.uid).1 hmem with h | h
        · exact h
        · exfalso
          rcases mem_uids.1 h with ⟨g', hg', hgu⟩
          exact uid_ne_of_size_lt hcons hwroot (hGroot g' hg')
            (hsz (w, g) (by simp) g' hg') hgu.symm
      refine ⟨hext', hsi', ?_, ?_⟩
      · intro x hx
        rcases hnew' x hx with h | ⟨pr, hpr, hxp⟩
        · exact Or.inl h
        · exact Or.inr ⟨pr, by simp [hpr], hxp⟩
      · intro pr hpr x hx hxnc
        rcases List.mem_cons.1 (by simpa using hpr) with h | h
        · subst h
          have hclosed := ordered_closed hsi.2.2.2.2
          have := Node.closure_completeN w root r hcons hcnp hsi.2.2.2.1 hsi.2.2.1 hclosed
            hwroot hw_in_r x hx hxnc
          have hxm : x.uid ∈ m := (hsi.1 x.uid).2 (Or.inl this)
          exact si_mono hsi hsi' hext' x.uid hxm
        · exact hcomp' pr h x hx hxnc
    · have hd : dfsEdges (EdgeList.cons w g es) (m, r) = dfsEdges es (dfs w (m, r)) := by
        simp [dfsEdges, if_neg hmem]
      rw [hd]
      have hwroot : w ∈ root.allNodes := hroots (w, g) (by simp)
      obtain ⟨⟨t, ht⟩, hsiW, hnewW, hcompW, _⟩ :=
        dfs_spec w root G m r hcons hcnp hwroot hGroot
          (fun g' hg' => hsz (w, g) (by simp) g' hg') hsi (fun _ => hmem)
      obtain ⟨⟨t', ht'⟩, hsi', hnew', hcomp'⟩ :=
        dfsEdges_spec es root G (dfs w (m, r)).1 (dfs w (m, r)).2 hcons hcnp
          (fun pr hpr => hroots pr (by simp [hpr]))
          (fun pr hpr => hsz pr (by simp [hpr])) hGroot hsiW
      refine ⟨⟨t ++ t', by rw [ht', ht]; simp⟩, hsi', ?_, ?_⟩
      · intro x hx
        rcases hnew' x (by simpa using hx) with h | ⟨pr, hpr, hxp⟩
        · rcases hnewW x h with h2 | h2
          · exact Or.inl h2
          · exact Or.inr ⟨(w, g), by simp, h2⟩
        · exact Or.inr ⟨pr, by simp [hpr], hxp⟩
      · intro pr hpr x hx hxnc
        rcases List.mem_cons.1 (by simpa using hpr) with h | h
        · subst h
          have := hcompW x hx hxnc
          exact si_mono hsiW hsi' ⟨t', ht'⟩ x.uid this
        · exact hcomp' pr h x hx hxnc

end

/-- Master correctness property of `topological_sort` on a consistent graph:
only non-constant nodes, no duplicate uids, soundness and completeness with
respect to the nodes reachable from the root, the root comes first, and in
the returned (output-first) order every node's non-constant parents occur
strictly after it. -/
theorem topological_sort_spec (root : Node) (hcons : Consistent root) (hcnp : ConstNoParents root) :
    (∀ x ∈ topological_sort root, x.is_constant = false) ∧
    (uids (topological_sort root)).Nodup ∧
    (∀ x ∈ topological_sort root, x ∈ root.allNodes) ∧
    (∀ x ∈ root.allNodes, x.is_constant = false → x ∈ topological_sort root) ∧
    (root.is_constant = false → ∃ t, topological_sort root = root :: t) ∧
    (∀ r1 x r2, topological_sort root = r1 ++ x :: r2 →
       ∀ p ∈ x.parents, p.is_constant = false → p ∈ r2) := by
  have hsi0 : StateInv root [] [] [] := by
    refine ⟨by simp, by simp [uids], by simp, by simp, ?_⟩
    intro r1 x r2 h
    exact absurd h (by simp)
  obtain ⟨⟨t, ht⟩, hsiF, hnewF, hcompF, hlast⟩ :=
    dfs_spec root root [] [] [] hcons hcnp root.self_mem_allNodes
      (by simp) (by simp) hsi0 (fun _ => by simp)
  obtain ⟨hmF, hndF, hncF, hsubF, hordF⟩ := hsiF
  have hrevmem : ∀ x : Node, x ∈ topological_sort root ↔ x ∈ (dfs root ([], [])).2 := by
    intro x
    exact List.mem_reverse
  refine ⟨?_, ?_, ?_, ?_, ?_, ?_⟩
  · intro x hx
    exact hncF x ((hrevmem x).1 hx)
  · have : uids (topological_sort root) = (uids (dfs root ([], [])).2).reverse := by
      simp [topological_sort, uids]
    rw [this]
    exact List.nodup_reverse.2 hndF
  · intro x hx
    exact hsubF x ((hrevmem x).1 hx)
  · intro x hx hxnc
    have hxu : x.uid ∈ (dfs root ([], [])).1 := hcompF x hx hxnc
    have : x.uid ∈ uids (dfs root ([], [])).2 := by
      rcases (hmF x.uid).1 hxu with h | h
      · exact h
      · simp at h
    exact (hrevmem x).2 (mem_of_uid_mem hcons hsubF hx this)
  · intro hrnc
    obtain ⟨t2, ht2⟩ := hlast hrnc
    refine ⟨t2.reverse, ?_⟩
    simp [topological_sort, ht2]
  · intro r1 x r2 hsplit p hp hpnc
    have hPsplit : (dfs root ([], [])).2 = r2.reverse ++ x :: r1.reverse := by
      have h1 : ((dfs root ([], [])).2).reverse = r1 ++ x :: r2 := hsplit
      calc (dfs root ([], [])).2 = ((dfs root ([], [])).2).reverse.reverse := by simp
        _ = (r1 ++ x :: r2).reverse := by rw [h1]
        _ = r2.reverse ++ x :: r1.reverse := by simp
    have hpuid : p.uid ∈ uids r2.reverse := hordF r2.reverse x r1.reverse hPsplit p hp hpnc
    have hxP : x ∈ (dfs root ([], [])).2 := by
      rw [hPsplit]
      exact List.mem_append.2 (Or.inr (List.mem_cons.2 (Or.inl rfl)))
    have hproot : p ∈ root.allNodes := by
      rcases List.mem_map.1 hp with ⟨pr, hpr, rfl⟩
      exact Node.allNodes_transN root pr.1 x (Node.parent_mem_allNodes hpr) (hsubF x hxP)
    have hr2sub : ∀ y ∈ r2.reverse, y ∈ root.allNodes := by
      intro y hy
      refine hsubF y ?_
      rw [hPsplit]
      exact List.mem_append.2 (Or.inl hy)
    have : p ∈ r2.reverse := mem_of_uid_mem hcons hr2sub hproot hpuid
    exact List.mem_reverse.1 this

/-- Concrete diamond graph used by the witnesses: one leaf feeding two
intermediate operations whose results are summed into the output. -/
def leafW : Node := .mk 0 false true .nil

def opW1 : Node := .mk 1 false false (.cons leafW 5 .nil)

def opW2 : Node := .mk 2 false false (.cons leafW 7 .nil)

def outW : Node := .mk 3 false false (.cons opW1 1 (.cons opW2 1 .nil))

/-- C1: for every finite acyclic graph (a uid-consistent graph whose constant
nodes have no parents) and non-constant output node, `topological_sort` puts
the output first, and every non-constant reachable node appears strictly
before each of its non-constant parents: the order splits as
`r1 ++ x :: r2` with the parent in `r2`, i.e. the child's index is strictly
less than the parent's index. -/
theorem claim_C1 (root : Node) (hcons : Consistent root) (hcnp : ConstNoParents root)
    (hnc : root.is_constant = false) :
    (∃ t, topological_sort root = root :: t) ∧
    (∀ x ∈ root.allNodes, x.is_constant = false →
      ∀ p ∈ x.parents, p.is_constant = false →
        ∃ r1 r2, topological_sort root = r1 ++ x :: r2 ∧ p ∈ r2) := by
  obtain ⟨_, _, _, hcomp, hfirst, hord⟩ := topological_sort_spec root hcons hcnp
  refine ⟨hfirst hnc, ?_⟩
  intro x hx hxnc p hp hpnc
  obtain ⟨r1, r2, hsplit⟩ := List.append_of_mem (hcomp x hx hxnc)
  exact ⟨r1, r2, hsplit, hord r1 x r2 hsplit p hp hpnc⟩

theorem claim_C1_witness :
    Consistent outW ∧ ConstNoParents outW ∧ outW.is_constant = false ∧
    ((∃ t, topological_sort outW = outW :: t) ∧
     (∀ x ∈ outW.allNodes, x.is_constant = false →
       ∀ p ∈ x.parents, p.is_constant = false →
         ∃ r1 r2, topological_sort outW = r1 ++ x :: r2 ∧ p ∈ r2)) :=
  ⟨by decide, by decide, by decide, claim_C1 outW (by decide) (by decide) (by decide)⟩

/-- C2: on every finite acyclic graph the returned order contains each
reachable non-constant node exactly once, contains no constant node, and is
empty when the output itself is constant. -/
theorem claim_C2 (root : Node) (hcons : Consistent root) (hcnp : ConstNoParents root) :
    (∀ x ∈ root.allNodes, x.is_constant = false →
       (topological_sort root).count x = 1) ∧
    (∀ x ∈ topological_sort root, x.is_constant = false) ∧
    (root.is_constant = true → topological_sort root = []) := by
  obtain ⟨hnc, hnd, hsub, hcomp, _, _⟩ := topological_sort_spec root hcons hcnp
  refine ⟨?_, hnc, ?_⟩
  · intro x hx hxnc
    have hndn : (topological_sort root).Nodup := hnd.of_map Node.uid
    exact List.count_eq_one_of_mem hndn (hcomp x hx hxnc)
  · intro hc
    cases root with
    | mk u c l ps =>
      simp at hc
      subst hc
      simp [topological_sort, dfs]

theorem claim_C2_witness :
    Consistent outW ∧ ConstNoParents outW ∧
    ((∀ x ∈ outW.allNodes, x.is_constant = false →
        (topological_sort outW).count x = 1) ∧
     (∀ x ∈ topological_sort outW, x.is_constant = false) ∧
     (outW.is_constant = true → topological_sort outW = [])) :=
  ⟨by decide, by decide, claim_C2 outW (by decide) (by decide)⟩

/-- The derivative-total dict `{unique_id: value}` of `backpropagate`,
as an insertion-ordered association list mirroring the Python dict. -/
abbrev Totals := List (Nat × Int)

def lookupD : Totals → Nat → Option Int
  | [], _ => none
  | (k, x) :: rest, u => if k = u then some x else lookupD rest u

/-- `d[u] = x`: replace the entry if present, append otherwise. -/
def setD : Totals → Nat → Int → Totals
  | [], u, x => [(u, x)]
  | (k, y) :: rest, u, x => if k = u then (u, x) :: rest else (k, y) :: setD rest u x

/-- `d[u] += x` (used only where the key is present). -/
def addD : Totals → Nat → Int → Totals
  | [], _, _ => []
  | (k, y) :: rest, u, x => if k = u then (k, y + x) :: rest else (k, y) :: addD rest u x

def getD (ds : Totals) (u : Nat) : Int := (lookupD ds u).getD 0

/-- Processing one `(parent_var, deriv)` pair of the fan-out loop:
`if parent_var.is_constant(): continue; if id in derivatives: += else: =`. -/
def applyPair (ds : Totals) (pr : Node × Int) : Totals :=
  if pr.1.is_constant then ds
  else if (lookupD ds pr.1.uid).isSome then addD ds pr.1.uid pr.2
  else ds ++ [(pr.1.uid, pr.2)]

/-- Externally observable calls made by `backpropagate`:
`accumulate_derivative` on a node and `chain_rule` on a node. -/
inductive Event : Type where
  | accumulate (uid : Nat) (d : Int) : Event
  | chainCall (uid : Nat) (d : Int) : Event
  deriving DecidableEq

/-- The totals-only effect of processing one node of the order. -/
def stepTotals (ds : Totals) (v : Node) : Totals :=
  if v.is_leaf then ds
  else (v.chain_rule (getD ds v.uid)).foldl applyPair ds

def runTotals (vs : List Node) (ds : Totals) : Totals := vs.foldl stepTotals ds

/-- The main loop of `backpropagate`: for each node of the order in turn,
either commit the running total to the leaf's accumulator or fan it out to
the parents via `chain_rule`. -/
def runBackprop : List Node → Totals → Totals × List Event
  | [], ds => (ds, [])
  | v :: rest, ds =>
    if v.is_leaf then
      ((runBackprop rest ds).1,
        Event.accumulate v.uid (getD ds v.uid) :: (runBackprop rest ds).2)
    else
      ((runBackprop rest (stepTotals ds v)).1,
        Event.chainCall v.uid (getD ds v.uid) :: (runBackprop rest (stepTotals ds v)).2)

/-- `{var.unique_id: 0 for var in ordered_vars}`. -/
def initTotals (ordered : List Node) : Totals :=
  ordered.foldl (fun m v => setD m v.uid 0) []

/-- `backpropagate(variable, deriv)`: topological sort, seed the totals map,
run the main loop; returns the final totals and the observable-call trace. -/
def backpropagate (variable_ : Node) (deriv : Int) : Totals × List Event :=
  let ordered := topological_sort variable_
  runBackprop ordered (setD (initTotals ordered) variable_.uid deriv)

/-- The `(uid, value)` arguments of the `accumulate_derivative` calls of a
trace, in order. -/
def accumEvents : List Event → List (Nat × Int)
  | [] => []
  | Event.accumulate u d :: r => (u, d) :: accumEvents r
  | Event.chainCall _ _ :: r => accumEvents r

theorem lookupD_addD_ne : (ds : Totals) → ∀ (k u : Nat) (x : Int), k ≠ u →
    lookupD (addD ds k x) u = lookupD ds u
  | [] => by intro k u x _; rfl
  | (k', y) :: rest => by
    intro k u x h
    by_cases hk : k' = k
    · subst hk
      simp only [addD, if_pos rfl, lookupD, if_neg h]
    · simp only [addD, if_neg hk, lookupD]
      by_cases hu : k' = u
      · simp only [if_pos hu]
      · simp only [if_neg hu, lookupD_addD_ne rest k u x h]

theorem lookupD_append_ne : (ds : Totals) → ∀ (k u : Nat) (x : Int), k ≠ u →
    lookupD (ds ++ [(k, x)]) u = lookupD ds u
  | [] => by
    intro k u x h
    simp only [List.nil_append, lookupD, if_neg h]
  | (k', y) :: rest => by
    intro k u x h
    simp only [List.cons_append, lookupD]
    by_cases hu : k' = u
    · simp only [if_pos hu]
    · simp only [if_neg hu]
      exact lookupD_append_ne rest k u x h

theorem applyPair_preserve (ds : Totals) (pr : Node × Int) (u : Nat)
    (h : pr.1.is_constant = true ∨ pr.1.uid ≠ u) :
    lookupD (applyPair ds pr) u = lookupD ds u := by
  rcases h with h | h
  · simp [applyPair, h]
  · by_cases hc : pr.1.is_constant
    · simp [applyPair, hc]
    · simp only [applyPair, if_neg hc]
      by_cases hs : (lookupD ds pr.1.uid).isSome
      · simp only [if_pos hs, lookupD_addD_ne ds pr.1.uid u pr.2 h]
      · simp only [if_neg hs, lookupD_append_ne ds pr.1.uid u pr.2 h]

theorem foldl_applyPair_preserve : (l : List (Node × Int)) → ∀ (ds : Totals) (u : Nat),
    (∀ pr ∈ l, pr.1.is_constant = true ∨ pr.1.uid ≠ u) →
    lookupD (l.foldl applyPair ds) u = lookupD ds u
  | [] => by intro ds u _; rfl
  | pr :: rest => by
    intro ds u h
    simp only [List.foldl_cons]
    rw [foldl_applyPair_preserve rest (applyPair ds pr) u (fun q hq => h q (by simp [hq])),
      applyPair_preserve ds pr u (h pr (by simp))]

theorem stepTotals_preserve (ds : Totals) (v : Node) (u : Nat)
    (h : ∀ p ∈ v.parents, p.is_constant = false → p.uid ≠ u) :
    lookupD (stepTotals ds v) u = lookupD ds u := by
  by_cases hl : v.is_leaf
  · simp [stepTotals, hl]
  · simp only [stepTotals, if_neg hl]
    refine foldl_applyPair_preserve _ ds u ?_
    intro pr hpr
    rcases List.mem_map.1 hpr with ⟨e, he, rfl⟩
    by_cases hc : e.1.is_constant
    · exact Or.inl hc
    · refine Or.inr (h e.1 (List.mem_map.2 ⟨e, he, rfl⟩) ?_)
      cases hcc : e.1.is_constant
      · rfl
      · exact absurd hcc hc

theorem runTotals_preserve : (vs : List Node) → ∀ (ds : Totals) (u : Nat),
    (∀ v ∈ vs, ∀ p ∈ v.parents, p.is_constant = false → p.uid ≠ u) →
    lookupD (runTotals vs ds) u = lookupD ds u
  | [] => by intro ds u _; rfl
  | v :: rest => by
    intro ds u h
    have h1 : lookupD (runTotals rest (stepTotals ds v)) u = lookupD (stepTotals ds v) u :=
      runTotals_preserve rest (stepTotals ds v) u (fun w hw => h w (by simp [hw]))
    have h2 := stepTotals_preserve ds v u (h v (by simp))
    calc lookupD (runTotals (v :: rest) ds) u
        = lookupD (runTotals rest (stepTotals ds v)) u := rfl
      _ = lookupD (stepTotals ds v) u := h1
      _ = lookupD ds u := h2

theorem runTotals_append (vs1 vs2 : List Node) (ds : Totals) :
    runTotals (vs1 ++ vs2) ds = runTotals vs2 (runTotals vs1 ds) := by
  simp [runTotals, List.foldl_append]

theorem stepTotals_leaf {v : Node} (h : v.is_leaf = true) (ds : Totals) :
    stepTotals ds v = ds := by
  simp [stepTotals, h]

theorem runBackprop_fst : (vs : List Node) → ∀ ds : Totals,
    (runBackprop vs ds).1 = runTotals vs ds
  | [] => by intro ds; rfl
  | v :: rest => by
    intro ds
    by_cases hl : v.is_leaf
    · simp only [runBackprop, if_pos hl, runBackprop_fst rest ds, runTotals, List.foldl_cons,
        stepTotals_leaf hl]
    · simp only [runBackprop, if_neg hl, runBackprop_fst rest (stepTotals ds v), runTotals,
        List.foldl_cons]

theorem runBackprop_trace_append : (vs1 : List Node) → ∀ (vs2 : List Node) (ds : Totals),
    (runBackprop (vs1 ++ vs2) ds).2
      = (runBackprop vs1 ds).2 ++ (runBackprop vs2 (runTotals vs1 ds)).2
  | [] => by intro vs2 ds; rfl
  | v :: rest => by
    intro vs2 ds
    by_cases hl : v.is_leaf
    · simp only [List.cons_append, runBackprop, if_pos hl, runTotals, List.foldl_cons,
        stepTotals_leaf hl]
      exact congrArg _ (runBackprop_trace_append rest vs2 ds)
    · simp only [List.cons_append, runBackprop, if_neg hl, runTotals, List.foldl_cons]
      exact congrArg _ (runBackprop_trace_append rest vs2 (stepTotals ds v))

theorem chainCall_source : (vs : List Node) → ∀ (ds : Totals) (u : Nat) (d' : Int),
    Event.chainCall u d' ∈ (runBackprop vs ds).2 →
    ∃ w ∈ vs, w.is_leaf = false ∧ w.uid = u
  | [] => by intro ds u d' h; simp [runBackprop] at h
  | v :: rest => by
    intro ds u d' h
    by_cases hl : v.is_leaf
    · simp only [runBackprop, if_pos hl] at h
      rcases List.mem_cons.1 h with h1 | h1
      · exact absurd h1 (by simp)
      · obtain ⟨w, hw, hwl, hwu⟩ := chainCall_source rest ds u d' h1
        exact ⟨w, by simp [hw], hwl, hwu⟩
    · simp only [runBackprop, if_neg hl] at h
      rcases List.mem_cons.1 h with h1 | h1
      · refine ⟨v, by simp, ?_, ?_⟩
        · cases hc : v.is_leaf
          · rfl
          · exact absurd hc hl
        · cases h1
          rfl
      · obtain ⟨w, hw, hwl, hwu⟩ := chainCall_source rest (stepTotals ds v) u d' h1
        exact ⟨w, by simp [hw], hwl, hwu⟩

theorem lookupD_append_none : (ds : Totals) → ∀ (u : Nat) (l2 : Totals), lookupD ds u = none →
    lookupD (ds ++ l2) u = lookupD l2 u
  | [] => by intro u l2 _; rfl
  | (k, y) :: rest => by
    intro u l2 h
    simp only [lookupD] at h
    by_cases hk : k = u
    · rw [if_pos hk] at h
      exact absurd h (by simp)
    · rw [if_neg hk] at h
      simp only [List.cons_append, lookupD, if_neg hk]
      exact lookupD_append_none rest u l2 h

/-- C5: reverse-topological discipline of `backpropagate`.  For any node `v`
of the order, the derivative total for `v.uid` read at the moment `v` is
processed (after the steps for the nodes before it) is already the final
value of that entry: every consumer of `v` has contributed by then and no
later step touches the entry, so nothing is dropped, double-counted or read
early. -/
theorem claim_C5 (root : Node) (d : Int) (hcons : Consistent root) (hcnp : ConstNoParents root)
    (pre : List Node) (v : Node) (post : List Node)
    (hsplit : topological_sort root = pre ++ v :: post) :
    lookupD (backpropagate root d).1 v.uid
      = lookupD (runTotals pre (setD (initTotals (topological_sort root)) root.uid d)) v.uid := by
  obtain ⟨_, hnd, hsub, _, _, hord⟩ := topological_sort_spec root hcons hcnp
  have hvmem : v ∈ topological_sort root := by
    rw [hsplit]
    exact List.mem_append.2 (Or.inr (List.mem_cons.2 (Or.inl rfl)))
  have hvroot : v ∈ root.allNodes := hsub v hvmem
  set ds0 := setD (initTotals (topological_sort root)) root.uid d with hds0
  have hbp : (backpropagate root d).1 = runTotals (topological_sort root) ds0 :=
    runBackprop_fst _ _
  rw [hbp, hsplit, runTotals_append]
  have hrun : runTotals (v :: post) (runTotals pre ds0)
      = runTotals post (stepTotals (runTotals pre ds0) v) := rfl
  rw [hrun]
  have hvpost : v.uid ∉ uids post := by
    have he : uids (topological_sort root) = uids pre ++ v.uid :: uids post := by
      rw [hsplit]
      simp
    rw [he] at hnd
    have := hnd.of_append_right
    exact (List.nodup_cons.1 this).1
  have hpost : lookupD (runTotals post (stepTotals (runTotals pre ds0) v)) v.uid
      = lookupD (stepTotals (runTotals pre ds0) v) v.uid := by
    refine runTotals_preserve post _ v.uid ?_
    intro x hx p hp hpnc hpu
    obtain ⟨l1, l2, hl⟩ := List.append_of_mem hx
    have hsplit2 : topological_sort root = (pre ++ v :: l1) ++ x :: l2 := by
      rw [hsplit, hl]
      simp
    have hpl2 : p ∈ l2 := hord (pre ++ v :: l1) x l2 hsplit2 p hp hpnc
    apply hvpost
    rw [← hpu]
    refine mem_uids.2 ⟨p, ?_, rfl⟩
    rw [hl]
    exact List.mem_append.2 (Or.inr (List.mem_cons.2 (Or.inr hpl2)))
  have hstep : lookupD (stepTotals (runTotals pre ds0) v) v.uid
      = lookupD (runTotals pre ds0) v.uid := by
    refine stepTotals_preserve _ v v.uid ?_
    intro p hp hpnc hpu
    have hproot : p ∈ root.allNodes := by
      rcases List.mem_map.1 hp with ⟨pr, hpr, rfl⟩
      exact Node.allNodes_transN root pr.1 v (Node.parent_mem_allNodes hpr) hvroot
    have hpv : p = v := hcons p hproot v hvroot hpu
    subst hpv
    rcases List.mem_map.1 hp with ⟨pr, hpr, hpr1⟩
    have := Node.size_parent_lt (v := p) hpr
    rw [hpr1] at this
    omega
  rw [hpost, hstep]

theorem claim_C5_witness :
    Consistent outW ∧ ConstNoParents outW ∧
    topological_sort outW = [outW, opW2] ++ opW1 :: [leafW] ∧
    lookupD (backpropagate outW 1).1 opW1.uid
      = lookupD (runTotals [outW, opW2] (setD (initTotals (topological_sort outW)) outW.uid 1))
          opW1.uid :=
  ⟨by decide, by decide, by decide,
    claim_C5 outW 1 (by decide) (by decide) [outW, opW2] opW1 [leafW] (by decide)⟩

/-- C7: when a leaf `v` of the order is processed, `backpropagate` calls
`accumulate_derivative(v, total[v.uid])` with the running total at that
moment, and `chain_rule` is never invoked on `v` (no propagation continues
past a leaf). -/
theorem claim_C7 (root : Node) (d : Int) (hcons : Consistent root) (hcnp : ConstNoParents root)
    (pre : List Node) (v : Node) (post : List Node)
    (hsplit : topological_sort root = pre ++ v :: post) (hleaf : v.is_leaf = true) :
    Event.accumulate v.uid
        (getD (runTotals pre (setD (initTotals (topological_sort root)) root.uid d)) v.uid)
      ∈ (backpropagate root d).2 ∧
    (∀ u d', Event.chainCall u d' ∈ (backpropagate root d).2 → u ≠ v.uid) := by
  obtain ⟨_, _, hsub, _, _, _⟩ := topological_sort_spec root hcons hcnp
  have hvmem : v ∈ topological_sort root := by
    rw [hsplit]
    exact List.mem_append.2 (Or.inr (List.mem_cons.2 (Or.inl rfl)))
  set ds0 := setD (initTotals (topological_sort root)) root.uid d with hds0
  have hbp2 : (backpropagate root d).2 = (runBackprop (topological_sort root) ds0).2 := rfl
  constructor
  · rw [hbp2, hsplit, runBackprop_trace_append]
    refine List.mem_append.2 (Or.inr ?_)
    have hstep : (runBackprop (v :: post) (runTotals pre ds0)).2
        = Event.accumulate v.uid (getD (runTotals pre ds0) v.uid)
          :: (runBackprop post (runTotals pre ds0)).2 := by
      simp [runBackprop, hleaf]
    rw [hstep]
    exact List.mem_cons.2 (Or.inl rfl)
  · intro u d' hev hu
    rw [hbp2] at hev
    obtain ⟨w, hw, hwl, hwu⟩ := chainCall_source _ _ _ _ hev
    have hwv : w = v := hcons w (hsub w hw) v (hsub v hvmem) (by rw [hwu, hu])
    rw [hwv, hleaf] at hwl
    exact absurd hwl (by simp)

theorem claim_C7_witness :
    Consistent outW ∧ ConstNoParents outW ∧
    topological_sort outW = [outW, opW2, opW1] ++ leafW :: [] ∧ leafW.is_leaf = true ∧
    (Event.accumulate leafW.uid
        (getD (runTotals [outW, opW2, opW1]
          (setD (initTotals (topological_sort outW)) outW.uid 2)) leafW.uid)
      ∈ (backpropagate outW 2).2 ∧
     (∀ u d', Event.chainCall u d' ∈ (backpropagate outW 2).2 → u ≠ leafW.uid)) :=
  ⟨by decide, by decide, by decide, by decide,
    claim_C7 outW 2 (by decide) (by decide) [outW, opW2, opW1] leafW [] (by decide) (by decide)⟩

/-- C6: in the fan-out step, a `(parent, deriv)` pair whose parent is
constant is discarded without touching the totals, and a contribution to a
parent whose id is absent from the totals map creates the entry with that
contribution as its value instead of failing. -/
theorem claim_C6 (ds : Totals) (p : Node) (c : Int) :
    (p.is_constant = true → applyPair ds (p, c) = ds) ∧
    (p.is_constant = false → lookupD ds p.uid = none →
      applyPair ds (p, c) = ds ++ [(p.uid, c)] ∧
      lookupD (applyPair ds (p, c)) p.uid = some c) := by
  constructor
  · intro h
    simp [applyPair, h]
  · intro h hnone
    have h1 : applyPair ds (p, c) = ds ++ [(p.uid, c)] := by
      simp [applyPair, h, hnone]
    refine ⟨h1, ?_⟩
    rw [h1, lookupD_append_none ds p.uid [(p.uid, c)] hnone]
    simp [lookupD]

theorem claim_C6_witness :
    ((Node.mk 9 true false .nil).is_constant = true ∧
      applyPair [(5, 3)] (Node.mk 9 true false .nil, 4) = [(5, 3)]) ∧
    ((Node.mk 4 false true .nil).is_constant = false ∧
      lookupD [(5, 3)] (Node.mk 4 false true .nil).uid = none ∧
      (applyPair [(5, 3)] (Node.mk 4 false true .nil, 6)
          = [(5, 3)] ++ [((Node.mk 4 false true .nil).uid, 6)] ∧
       lookupD (applyPair [(5, 3)] (Node.mk 4 false true .nil, 6))
          (Node.mk 4 false true .nil).uid = some 6)) :=
  ⟨⟨by decide, (claim_C6 [(5, 3)] (Node.mk 9 true false .nil) 4).1 (by decide)⟩,
   ⟨by decide, by decide,
    (claim_C6 [(5, 3)] (Node.mk 4 false true .nil) 6).2 (by decide) (by decide)⟩⟩

/-- C10: a constant output is a complete no-op — the topological sort is
empty and the trace of observable calls (accumulations and `chain_rule`
invocations) is empty. -/
theorem claim_C10 (v : Node) (d : Int) (hc : v.is_constant = true) :
    topological_sort v = [] ∧ (backpropagate v d).2 = [] := by
  cases v with
  | mk u c l ps =>
    simp only [Node.is_constant_mk] at hc
    subst hc
    have h1 : topological_sort (Node.mk u true l ps) = [] := by
      simp [topological_sort, dfs]
    refine ⟨h1, ?_⟩
    simp [backpropagate, h1, runBackprop]

theorem claim_C10_witness :
    (Node.mk 7 true false .nil).is_constant = true ∧
    (topological_sort (Node.mk 7 true false .nil) = [] ∧
     (backpropagate (Node.mk 7 true false .nil) 5).2 = []) :=
  ⟨by decide, claim_C10 (Node.mk 7 true false .nil) 5 (by decide)⟩

/-- Linear chain `leaf -> op1 -> op2` where `op2` is the output, with local
derivative `g1` on the op1 edge and `g2` on the op2 edge. -/
def chainGraph (u0 u1 u2 : Nat) (g1 g2 : Int) : Node :=
  .mk u2 false false
    (.cons (.mk u1 false false (.cons (.mk u0 false true .nil) g1 .nil)) g2 .nil)

/-- C3: on a linear chain with local derivatives `g1`, `g2`, backpropagation
with seed `d` makes exactly one `accumulate_derivative` call, on the leaf,
with value `d * g1 * g2`. -/
theorem claim_C3 (u0 u1 u2 : Nat) (g1 g2 d : Int)
    (h01 : u0 ≠ u1) (h02 : u0 ≠ u2) (h12 : u1 ≠ u2) :
    accumEvents (backpropagate (chainGraph u0 u1 u2 g1 g2) d).2 = [(u0, d * g1 * g2)] := by
  have h10 := h01.symm
  have h20 := h02.symm
  have h21 := h12.symm
  simp [backpropagate, chainGraph, topological_sort, dfs, dfsEdges, initTotals, runBackprop,
    stepTotals, setD, addD, lookupD, getD, applyPair, accumEvents, Node.chain_rule, Node.parents,
    h01, h02, h12, h10, h20, h21]
  ring

theorem claim_C3_witness :
    (0 : Nat) ≠ 1 ∧ (0 : Nat) ≠ 2 ∧ (1 : Nat) ≠ 2 ∧
    accumEvents (backpropagate (chainGraph 0 1 2 3 4) 2).2 = [(0, 2 * 3 * 4)] :=
  ⟨by decide, by decide, by decide,
    claim_C3 0 1 2 3 4 2 (by decide) (by decide) (by decide)⟩

/-- Diamond: one leaf feeding two independent operations (local derivatives
`a` and `b`) whose results are summed (local derivative `1` on each summand)
into a single output. -/
def diamondGraph (u0 u1 u2 u3 : Nat) (a b : Int) : Node :=
  .mk u3 false false
    (.cons (.mk u1 false false (.cons (.mk u0 false true .nil) a .nil)) 1
      (.cons (.mk u2 false false (.cons (.mk u0 false true .nil) b .nil)) 1 .nil))

/-- C4: on the diamond, backpropagation with seed `1` makes exactly one
`accumulate_derivative` call, on the shared leaf, with the sum `a + b` of
the two paths' local derivatives — each path counted exactly once. -/
theorem claim_C4 (u0 u1 u2 u3 : Nat) (a b : Int)
    (h01 : u0 ≠ u1) (h02 : u0 ≠ u2) (h03 : u0 ≠ u3)
    (h12 : u1 ≠ u2) (h13 : u1 ≠ u3) (h23 : u2 ≠ u3) :
    accumEvents (backpropagate (diamondGraph u0 u1 u2 u3 a b) 1).2 = [(u0, a + b)] := by
  have h10 := h01.symm
  have h20 := h02.symm
  have h30 := h03.symm
  have h21 := h12.symm
  have h31 := h13.symm
  have h32 := h23.symm
  simp [backpropagate, diamondGraph, topological_sort, dfs, dfsEdges, initTotals, runBackprop,
    stepTotals, setD, addD, lookupD, getD, applyPair, accumEvents, Node.chain_rule, Node.parents,
    h01, h02, h03, h12, h13, h23, h10, h20, h30, h21, h31, h32]
  ring

theorem claim_C4_witness :
    (0 : Nat) ≠ 1 ∧ (0 : Nat) ≠ 2 ∧ (0 : Nat) ≠ 3 ∧
    (1 : Nat) ≠ 2 ∧ (1 : Nat) ≠ 3 ∧ (2 : Nat) ≠ 3 ∧
    accumEvents (backpropagate (diamondGraph 0 1 2 3 5 7) 1).2 = [(0, 5 + 7)] :=
  ⟨by decide, by decide, by decide, by decide, by decide, by decide,
    claim_C4 0 1 2 3 5 7 (by decide) (by decide) (by decide) (by decide) (by decide) (by decide)⟩

/-- `Context` dataclass: `no_grad: bool = False`,
`saved_values: Tuple[Any, ...] = ()`, over an arbitrary value type. -/
structure Context (α : Type) where
  no_grad : Bool := false
  saved_values : List α := []

/-- `save_for_backward(*values)`: store the values unless `no_grad`. -/
def Context.save_for_backward {α : Type} (ctx : Context α) (values : List α) : Context α :=
  if ctx.no_grad then ctx else { ctx with saved_values := values }

/-- `saved_tensors` property: returns `saved_values`. -/
def Context.saved_tensors {α : Type} (ctx : Context α) : List α := ctx.saved_values

/-- C8: with `no_grad = True`, `save_for_backward` is a no-op (and a freshly
constructed no-grad context keeps `saved_tensors` empty); with
`no_grad = False`, `saved_tensors` is exactly the most recent
`save_for_backward` argument, and the empty tuple when it was never
called. -/
theorem claim_C8 (α : Type) (ctx : Context α) (vals vals2 : List α) :
    (ctx.no_grad = true → ctx.save_for_backward vals = ctx) ∧
    ((Context.mk true []).save_for_backward vals).saved_tensors = ([] : List α) ∧
    (ctx.no_grad = false → (ctx.save_for_backward vals).saved_tensors = vals) ∧
    (ctx.no_grad = false →
      ((ctx.save_for_backward vals).save_for_backward vals2).saved_tensors = vals2) ∧
    (Context.mk false ([] : List α)).saved_tensors = [] := by
  refine ⟨?_, ?_, ?_, ?_, rfl⟩
  · intro h
    simp [Context.save_for_backward, h]
  · simp [Context.save_for_backward, Context.saved_tensors]
  · intro h
    simp [Context.save_for_backward, h, Context.saved_tensors]
  · intro h
    simp [Context.save_for_backward, h, Context.saved_tensors]

theorem claim_C8_witness :
    (Context.mk true [(3 : Int)]).no_grad = true ∧
    (Context.mk false [(3 : Int)]).no_grad = false ∧
    ((Context.mk true [(3 : Int)]).save_for_backward [7, 8] = Context.mk true [3] ∧
     ((Context.mk false [(3 : Int)]).save_for_backward [7, 8]).saved_tensors = [7, 8] ∧
     (((Context.mk false [(3 : Int)]).save_for_backward [7, 8]).save_for_backward [9]).saved_tensors
        = [9]) :=
  ⟨rfl, rfl,
    (claim_C8 Int (Context.mk true [3]) [7, 8] [9]).1 rfl,
    (claim_C8 Int (Context.mk false [3]) [7, 8] [9]).2.2.1 rfl,
    (claim_C8 Int (Context.mk false [3]) [7, 8] [9]).2.2.2.1 rfl⟩

/-- `central_difference(f, *vals, arg, epsilon)`: copy the argument list,
shift entry `arg` down/up by `epsilon / 2`, and take the scaled difference
of the two evaluations (exact rational arithmetic in place of floats). -/
def central_difference (f : List ℚ → ℚ) (vals : List ℚ) (arg : Nat) (epsilon : ℚ) : ℚ :=
  let left_vals := vals.set arg (vals.getD arg 0 - epsilon / 2)
  let right_vals := vals.set arg (vals.getD arg 0 + epsilon / 2)
  (f right_vals - f left_vals) / epsilon

theorem getD_set_self : (l : List ℚ) → ∀ (i : Nat) (a : ℚ), i < l.length →
    (l.set i a).getD i 0 = a
  | [] => by intro i a h; simp at h
  | x :: xs => by
    intro i a h
    cases i with
    | zero => rfl
    | succ n =>
      simp only [List.set, List.getD_cons_succ]
      exact getD_set_self xs n a (by simpa using h)

theorem getD_set_ne : (l : List ℚ) → ∀ (i j : Nat) (a : ℚ), i ≠ j →
    (l.set i a).getD j 0 = l.getD j 0
  | [] => by intro i j a _; simp
  | x :: xs => by
    intro i j a h
    cases i with
    | zero =>
      cases j with
      | zero => exact absurd rfl h
      | succ m => rfl
    | succ n =>
      cases j with
      | zero => rfl
      | succ m =>
        simp only [List.set, List.getD_cons_succ]
        exact getD_set_ne xs n m a (by omega)

/-- C9: for an in-range index and nonzero epsilon, `central_difference`
returns `(f(vals with entry arg raised by eps/2) - f(vals with entry arg
lowered by eps/2)) / eps`, both evaluation points having all entries other
than `arg` unchanged. -/
theorem claim_C9 (f : List ℚ → ℚ) (vals : List ℚ) (arg : Nat) (epsilon : ℚ)
    (harg : arg < vals.length) (_heps : epsilon ≠ 0) :
    ∃ right_vals left_vals : List ℚ,
      central_difference f vals arg epsilon = (f right_vals - f left_vals) / epsilon ∧
      right_vals.length = vals.length ∧ left_vals.length = vals.length ∧
      right_vals.getD arg 0 = vals.getD arg 0 + epsilon / 2 ∧
      left_vals.getD arg 0 = vals.getD arg 0 - epsilon / 2 ∧
      (∀ j, j ≠ arg → right_vals.getD j 0 = vals.getD j 0) ∧
      (∀ j, j ≠ arg → left_vals.getD j 0 = vals.getD j 0) := by
  refine ⟨vals.set arg (vals.getD arg 0 + epsilon / 2),
    vals.set arg (vals.getD arg 0 - epsilon / 2), rfl, by simp, by simp,
    getD_set_self vals arg _ harg, getD_set_self vals arg _ harg, ?_, ?_⟩
  · intro j hj
    exact getD_set_ne vals arg j _ (fun he => hj he.symm)
  · intro j hj
    exact getD_set_ne vals arg j _ (fun he => hj he.symm)

theorem claim_C9_witness :
    (1 : Nat) < ([3, 5] : List ℚ).length ∧ (2 : ℚ) ≠ 0 ∧
    ∃ right_vals left_vals : List ℚ,
      central_difference (fun l => l.getD 0 0 * l.getD 1 0) [3, 5] 1 2
          = ((fun l => l.getD 0 0 * l.getD 1 0) right_vals
              - (fun l => l.getD 0 0 * l.getD 1 0) left_vals) / 2 ∧
      right_vals.length = ([3, 5] : List ℚ).length ∧
      left_vals.length = ([3, 5] : List ℚ).length ∧
      right_vals.getD 1 0 = ([3, 5] : List ℚ).getD 1 0 + 2 / 2 ∧
      left_vals.getD 1 0 = ([3, 5] : List ℚ).getD 1 0 - 2 / 2 ∧
      (∀ j, j ≠ 1 → right_vals.getD j 0 = ([3, 5] : List ℚ).getD j 0) ∧
      (∀ j, j ≠ 1 → left_vals.getD j 0 = ([3, 5] : List ℚ).getD j 0) :=
  ⟨by decide, by norm_num,
    claim_C9 (fun l => l.getD 0 0 * l.getD 1 0) [3, 5] 1 2 (by decide) (by norm_num)⟩

end Minitorch

